import Mathlib

/-!
Shallow embedding of `SPSCQueue.h` (namespace `rigtorp`, class `SPSCQueue<T>`):
a bounded single-producer single-consumer ring buffer over a raw slot array of
`capacity + 2 * kPadding` slots, with producer index `head_` and consumer index
`tail_`. In this sequential embedding the atomic loads/stores become plain
reads/writes of the record fields; a slot is `none` when its storage is
uninitialized and `some v` when a `T` has been placement-constructed in it.
-/

namespace SPSC

/-- `static constexpr size_t kCacheLineSize = 128;` -/
def kCacheLineSize : Nat := 128

/-- `static constexpr size_t kPadding = (kCacheLineSize - 1) / sizeof(T) + 1;`
where `s` stands for `sizeof(T)`. -/
def kPadding (s : Nat) : Nat := (kCacheLineSize - 1) / s + 1

/-- The state of an `SPSCQueue<T>`: `capacity_`, the slot array `slots_`
(of physical length `capacity_ + 2 * kPadding`; `pad` records the `kPadding`
value for the element type), and the indices `head_` and `tail_`. -/
structure Queue (α : Type) where
  capacity : Nat
  pad : Nat
  slots : List (Option α)
  head : Nat
  tail : Nat
deriving Repr, DecidableEq

/-- The two exceptions the constructor can throw:
`std::invalid_argument("size < 2")` and `std::bad_alloc()`. -/
inductive ConstructError where
  | invalidCapacity
  | allocationFailure
deriving Repr, DecidableEq

/-- `SPSCQueue(const size_t capacity)`: the member initializer list calls
`std::malloc(sizeof(T) * (capacity_ + 2 * kPadding))` (the flag `allocOk`
abstracts whether that call returned a non-null pointer) and sets
`head_(0), tail_(0)`; the body then throws `std::invalid_argument` when
`capacity_ < 2`, and only afterwards throws `std::bad_alloc` when `!slots_`. -/
def construct (α : Type) (pad capacity : Nat) (allocOk : Bool) :
    Except ConstructError (Queue α) :=
  if capacity < 2 then
    .error .invalidCapacity
  else if !allocOk then
    .error .allocationFailure
  else
    .ok { capacity := capacity, pad := pad,
          slots := List.replicate (capacity + 2 * pad) none,
          head := 0, tail := 0 }

/-- `bool try_emplace(Args &&... args)`: reads `head_`, computes
`nextHead = (head + 1) % capacity_`; if `nextHead == tail_` returns `false`
without touching anything; otherwise placement-constructs the element at
`slots_[head + kPadding]`, stores `nextHead` into `head_` and returns `true`. -/
def try_emplace (q : Queue α) (v : α) : Bool × Queue α :=
  let head := q.head
  let nextHead := (head + 1) % q.capacity
  if nextHead = q.tail then
    (false, q)
  else
    (true, { q with slots := q.slots.set (head + q.pad) (some v),
                    head := nextHead })

/-- `void emplace(Args &&... args)`: like `try_emplace`, but instead of
returning `false` it busy-waits on `nextHead == tail_.load(...)`. In this
sequential embedding no other thread can change `tail_` during the spin, so a
full queue makes the loop spin forever; that divergence is modelled as `none`. -/
def emplace (q : Queue α) (v : α) : Option (Queue α) :=
  let head := q.head
  let nextHead := (head + 1) % q.capacity
  if nextHead = q.tail then
    none
  else
    some { q with slots := q.slots.set (head + q.pad) (some v),
                  head := nextHead }

/-- `T *front()`: reads `tail_`; returns `nullptr` (`none`) when
`head_ == tail`, otherwise the pointer `&slots_[tail + kPadding]`, modelled as
the physical slot index `tail + kPadding`. -/
def front (q : Queue α) : Option Nat :=
  let tail := q.tail
  if q.head = tail then
    none
  else
    some (tail + q.pad)

/-- Dereference the pointer returned by `front`: the contents of the physical
slot it designates, or `none` when `front` returned `nullptr`. -/
def frontVal (q : Queue α) : Option α :=
  match front q with
  | none => none
  | some i => q.slots.getD i none

/-- `void pop()`: reads `tail_`; `assert(head_.load(...) != tail)` — the
assertion firing (empty queue) is modelled as `none`; otherwise destroys
`slots_[tail + kPadding]` (the slot reverts to uninitialized, `none`) and
stores `(tail + 1) % capacity_` into `tail_`. -/
def pop (q : Queue α) : Option (Queue α) :=
  let tail := q.tail
  if q.head = tail then
    none
  else
    some { q with slots := q.slots.set (tail + q.pad) none,
                  tail := (tail + 1) % q.capacity }

/-- `size_t size() const`: `ssize_t diff = head_ - tail_; if (diff < 0) diff
+= capacity_; return diff;` — the signed difference, shifted up by the
capacity when negative. -/
def size (q : Queue α) : Nat :=
  let diff : Int := (q.head : Int) - (q.tail : Int)
  (if diff < 0 then diff + (q.capacity : Int) else diff).toNat

/-- `bool empty() const { return size() == 0; }` -/
def empty (q : Queue α) : Bool :=
  size q == 0

/-- The live contents of the queue, read from the slot array: the `size q`
slot values starting at logical index `tail` and wrapping modulo the
capacity (each shifted by `pad` to reach its physical slot). -/
def contents (q : Queue α) : List (Option α) :=
  (List.range (size q)).map
    (fun i => q.slots.getD ((q.tail + i) % q.capacity + q.pad) none)

/-- The structural invariant of a constructed queue: capacity at least 2,
both indices strictly below the capacity, and the slot array of its physical
length `capacity + 2 * pad`. -/
def WF (q : Queue α) : Prop :=
  2 ≤ q.capacity ∧ q.head < q.capacity ∧ q.tail < q.capacity ∧
    q.slots.length = q.capacity + 2 * q.pad

instance (q : Queue α) : Decidable (WF q) := by
  unfold WF; exact inferInstance

/-- A producer insertion or a consumer removal, for replaying interleavings
of the two threads' operations against the queue. -/
inductive Op (α : Type) where
  | ins (v : α)
  | del
deriving Repr, DecidableEq

/-- The values a list of operations inserts, in order. -/
def inserted : List (Op α) → List α
  | [] => []
  | .ins v :: ops => v :: inserted ops
  | .del :: ops => inserted ops

/-- Run a list of operations: each `ins v` must succeed (`try_emplace`
returning `true`) and each `del` must hit a non-empty queue (`pop` not
asserting), else the whole run is rejected (`none`). Returns the values the
`pop`s destroyed, in order, together with the final queue. -/
def runOps (q : Queue α) : List (Op α) → Option (List (Option α) × Queue α)
  | [] => some ([], q)
  | .ins v :: ops =>
    match try_emplace q v with
    | (true, q') => runOps q' ops
    | (false, _) => none
  | .del :: ops =>
    match pop q with
    | none => none
    | some q' =>
      match runOps q' ops with
      | none => none
      | some (vs, qf) => some (q.slots.getD (q.tail + q.pad) none :: vs, qf)

/-- An observable event of the destructor: the destruction of one contained
element, or the `std::free` of the slot array. -/
inductive DtorEvent (α : Type) where
  | destroy (v : Option α)
  | free
deriving Repr, DecidableEq

/-- The destructor's drain loop `while (front()) { pop(); }`, with explicit
fuel: records each destroyed element's value and returns the final queue. -/
def drainRun : Nat → Queue α → List (Option α) × Queue α
  | 0, q => ([], q)
  | fuel + 1, q =>
    match front q with
    | none => ([], q)
    | some i =>
      match pop q with
      | none => ([], q)
      | some q' =>
        let r := drainRun fuel q'
        (q.slots.getD i none :: r.1, r.2)

/-- The event trace of `~SPSCQueue()`: drain every remaining element via
`while (front()) pop();`, then `std::free(slots_)`. `size q` steps of fuel
are enough for the drain loop of a well-formed queue to reach emptiness. -/
def destructorTrace (q : Queue α) : List (DtorEvent α) :=
  ((drainRun (size q) q).1.map DtorEvent.destroy) ++ [DtorEvent.free]

/-- A concrete empty queue of capacity 2 (one usable slot, one padding slot
per side), used to evaluate the theorems on explicit inputs. -/
def wqEmpty2 : Queue Nat := ⟨2, 1, [none, none, none, none], 0, 0⟩

/-- A concrete capacity-3 queue holding the single element 5 (at logical
slot 0, physical slot 1), with `head = 1`, `tail = 0`. -/
def wqOne3 : Queue Nat := ⟨3, 1, [none, some 5, none, none, none], 1, 0⟩

/-- A concrete capacity-3 queue holding the elements 7 and 8 (logical slots
0 and 1), with `head = 2`, `tail = 0`. -/
def wqTwo3 : Queue Nat := ⟨3, 1, [none, some 7, some 8, none, none], 2, 0⟩

/-! ### Arithmetic and list helpers -/

theorem mod_small_cases (x C : Nat) (h : x < 2 * C) :
    (x < C ∧ x % C = x) ∨ (C ≤ x ∧ x % C = x - C) := by
  rcases Nat.lt_or_ge x C with hx | hx
  · exact Or.inl ⟨hx, Nat.mod_eq_of_lt hx⟩
  · refine Or.inr ⟨hx, ?_⟩
    rw [Nat.mod_eq_sub_mod hx]
    exact Nat.mod_eq_of_lt (by omega)

theorem getD_set_self (l : List γ) (i : Nat) (a d : γ) (h : i < l.length) :
    (l.set i a).getD i d = a := by
  simp [List.getD_eq_getElem?_getD, List.getElem?_set_self h]

theorem getD_set_ne (l : List γ) {i j : Nat} (a d : γ) (h : i ≠ j) :
    (l.set i a).getD j d = l.getD j d := by
  simp [List.getD_eq_getElem?_getD, List.getElem?_set_ne h]

/-! ### Size arithmetic -/

theorem size_cases (q : Queue α) (h2 : q.tail < q.capacity) :
    (q.tail ≤ q.head ∧ size q + q.tail = q.head) ∨
      (q.head < q.tail ∧ size q + q.tail = q.head + q.capacity) := by
  unfold size
  dsimp only
  split <;> omega

theorem size_zero_iff (q : Queue α) (_h1 : q.head < q.capacity)
    (h2 : q.tail < q.capacity) : size q = 0 ↔ q.head = q.tail := by
  rcases size_cases q h2 with h | h <;> omega

theorem size_lt_capacity (q : Queue α) (h1 : q.head < q.capacity)
    (h2 : q.tail < q.capacity) : size q < q.capacity := by
  rcases size_cases q h2 with h | h <;> omega

/-! ### Ring-index facts -/

theorem occupied_ne_head (q : Queue α) (h : WF q) {i : Nat} (hi : i < size q) :
    (q.tail + i) % q.capacity ≠ q.head := by
  obtain ⟨hC, hh, ht, _⟩ := h
  have hs := size_cases q ht
  rcases mod_small_cases (q.tail + i) q.capacity (by omega) with ⟨h1, hm⟩ | ⟨h1, hm⟩ <;>
    rw [hm] <;> omega

theorem occupied_ne_tail (q : Queue α) (h : WF q) {j : Nat} (h1 : 1 ≤ j)
    (hj : j < q.capacity) : (q.tail + j) % q.capacity ≠ q.tail := by
  obtain ⟨hC, hh, ht, _⟩ := h
  rcases mod_small_cases (q.tail + j) q.capacity (by omega) with ⟨h2, hm⟩ | ⟨h2, hm⟩ <;>
    rw [hm] <;> omega

theorem head_index (q : Queue α) (h : WF q) :
    (q.tail + size q) % q.capacity = q.head := by
  obtain ⟨hC, hh, ht, _⟩ := h
  have hs := size_cases q ht
  rcases mod_small_cases (q.tail + size q) q.capacity (by omega) with ⟨h1, hm⟩ | ⟨h1, hm⟩ <;>
    rw [hm] <;> omega

/-! ### Step lemmas for the producer and consumer operations -/

theorem try_emplace_eq_true (q : Queue α) (v : α) (q' : Queue α)
    (he : try_emplace q v = (true, q')) :
    q' = { q with slots := q.slots.set (q.head + q.pad) (some v),
                  head := (q.head + 1) % q.capacity }
      ∧ (q.head + 1) % q.capacity ≠ q.tail := by
  unfold try_emplace at he
  dsimp only at he
  split at he
  · simp at he
  · injection he with h1 h2
    exact ⟨h2.symm, by assumption⟩

theorem try_emplace_eq_false (q : Queue α) (v : α)
    (he : (try_emplace q v).1 = false) :
    (q.head + 1) % q.capacity = q.tail ∧ (try_emplace q v).2 = q := by
  unfold try_emplace at he ⊢
  dsimp only at he ⊢
  split at he
  · rename_i hc
    rw [if_pos hc]
    exact ⟨hc, rfl⟩
  · simp at he

theorem try_emplace_success_spec (q : Queue α) (v : α) (q' : Queue α)
    (h : WF q) (he : try_emplace q v = (true, q')) :
    WF q' ∧ q'.capacity = q.capacity ∧ q'.pad = q.pad ∧ q'.tail = q.tail
      ∧ q'.head = (q.head + 1) % q.capacity
      ∧ q'.slots = q.slots.set (q.head + q.pad) (some v)
      ∧ size q' = size q + 1
      ∧ contents q' = contents q ++ [some v] := by
  obtain ⟨hq', hne⟩ := try_emplace_eq_true q v q' he
  subst hq'
  obtain ⟨hC, hh, ht, hl⟩ := h
  have hsz : size
      { q with
        slots := q.slots.set (q.head + q.pad) (some v),
        head := (q.head + 1) % q.capacity } = size q + 1 := by
    have hs := size_cases q ht
    rcases mod_small_cases (q.head + 1) q.capacity (by omega) with ⟨h1, hH⟩ | ⟨h1, hH⟩ <;>
      unfold size at hs ⊢ <;> dsimp only at hs ⊢ <;> rw [hH] at hne ⊢ <;>
      split at hs <;> split <;> try split
    all_goals omega
  refine ⟨⟨hC, by dsimp only; exact Nat.mod_lt _ (by omega), ht, by simp [hl]⟩,
    rfl, rfl, rfl, rfl, rfl, hsz, ?_⟩
  unfold contents
  dsimp only
  rw [hsz, List.range_succ, List.map_append]
  have hmain : ∀ i ∈ List.range (size q),
      (q.slots.set (q.head + q.pad) (some v)).getD
          ((q.tail + i) % q.capacity + q.pad) none
        = q.slots.getD ((q.tail + i) % q.capacity + q.pad) none := by
    intro i hi
    have hi' : i < size q := List.mem_range.mp hi
    have hne' := occupied_ne_head q ⟨hC, hh, ht, hl⟩ hi'
    exact getD_set_ne _ _ _ (by omega)
  rw [List.map_congr_left hmain]
  have hlast : (q.tail + size q) % q.capacity = q.head :=
    head_index q ⟨hC, hh, ht, hl⟩
  simp only [List.map_cons, List.map_nil, hlast]
  rw [getD_set_self _ _ _ _ (by omega)]

theorem pop_eq_some (q q' : Queue α) (hp : pop q = some q') :
    q' = { q with slots := q.slots.set (q.tail + q.pad) none,
                  tail := (q.tail + 1) % q.capacity }
      ∧ q.head ≠ q.tail := by
  unfold pop at hp
  dsimp only at hp
  split at hp
  · simp at hp
  · injection hp with h1
    exact ⟨h1.symm, by assumption⟩

theorem pop_success_spec (q q' : Queue α) (h : WF q) (hp : pop q = some q') :
    WF q' ∧ q'.capacity = q.capacity ∧ q'.pad = q.pad ∧ q'.head = q.head
      ∧ q'.tail = (q.tail + 1) % q.capacity
      ∧ q'.slots = q.slots.set (q.tail + q.pad) none
      ∧ size q' + 1 = size q
      ∧ contents q = q.slots.getD (q.tail + q.pad) none :: contents q' := by
  obtain ⟨hq', hne⟩ := pop_eq_some q q' hp
  subst hq'
  obtain ⟨hC, hh, ht, hl⟩ := h
  have hsz : size
      { q with
        slots := q.slots.set (q.tail + q.pad) none,
        tail := (q.tail + 1) % q.capacity } + 1 = size q := by
    have hs := size_cases q ht
    rcases mod_small_cases (q.tail + 1) q.capacity (by omega) with ⟨h1, hT⟩ | ⟨h1, hT⟩ <;>
      unfold size at hs ⊢ <;> dsimp only at hs ⊢ <;> rw [hT] <;>
      split at hs <;> split <;> try split
    all_goals omega
  refine ⟨⟨hC, hh, by dsimp only; exact Nat.mod_lt _ (by omega), by simp [hl]⟩,
    rfl, rfl, rfl, rfl, rfl, hsz, ?_⟩
  unfold contents
  dsimp only
  rw [← hsz, List.range_succ_eq_map, List.map_cons, List.map_map]
  have hzero : (q.tail + 0) % q.capacity = q.tail := by
    rw [Nat.add_zero, Nat.mod_eq_of_lt ht]
  rw [hzero]
  refine congrArg (q.slots.getD (q.tail + q.pad) none :: ·) ?_
  apply List.map_congr_left
  intro i hi
  have hi' : i < size
      { q with
        slots := q.slots.set (q.tail + q.pad) none,
        tail := (q.tail + 1) % q.capacity } := List.mem_range.mp hi
  have hidx : ((q.tail + 1) % q.capacity + i) % q.capacity
      = (q.tail + (i + 1)) % q.capacity := by
    rw [Nat.mod_add_mod]
    exact congrArg (· % q.capacity) (by omega)
  have hslt : size q < q.capacity := size_lt_capacity q hh ht
  have hne2 : (q.tail + (i + 1)) % q.capacity ≠ q.tail :=
    occupied_ne_tail q ⟨hC, hh, ht, hl⟩ (by omega) (by omega)
  dsimp only [Function.comp]
  rw [hidx, getD_set_ne _ _ _ (by omega)]

theorem pop_none_iff (q : Queue α) : pop q = none ↔ q.head = q.tail := by
  unfold pop
  dsimp only
  split
  · rename_i hc
    constructor
    · intro _
      exact hc
    · intro _
      rfl
  · rename_i hc
    constructor
    · intro hx
      exact nomatch hx
    · intro hx
      exact absurd hx hc

/-! ### Whole-run and drain lemmas -/

theorem runOps_spec (ops : List (Op α)) (q : Queue α) (popped : List (Option α))
    (qf : Queue α) (h : WF q) (hr : runOps q ops = some (popped, qf)) :
    WF qf ∧ popped ++ contents qf = contents q ++ (inserted ops).map some := by
  induction ops generalizing q popped qf with
  | nil =>
    unfold runOps at hr
    simp only [Option.some.injEq, Prod.mk.injEq] at hr
    obtain ⟨h1, h2⟩ := hr
    subst h1
    subst h2
    exact ⟨h, by simp [inserted]⟩
  | cons op ops ih =>
    cases op with
    | ins v =>
      unfold runOps at hr
      rcases he : try_emplace q v with ⟨b, q'⟩
      rw [he] at hr
      cases b with
      | false => simp at hr
      | true =>
        dsimp only at hr
        obtain ⟨hwf', _, _, _, _, _, _, hcont⟩ :=
          try_emplace_success_spec q v q' h he
        obtain ⟨hwf, heq⟩ := ih q' popped qf hwf' hr
        refine ⟨hwf, ?_⟩
        rw [heq, hcont]
        simp [inserted]
    | del =>
      unfold runOps at hr
      rcases hp : pop q with _ | q'
      · rw [hp] at hr
        simp at hr
      · rw [hp] at hr
        dsimp only at hr
        rcases hro : runOps q' ops with _ | vqf
        · rw [hro] at hr
          simp at hr
        · rcases vqf with ⟨vs, qf'⟩
          rw [hro] at hr
          dsimp only at hr
          simp only [Option.some.injEq, Prod.mk.injEq] at hr
          obtain ⟨h1, h2⟩ := hr
          subst h1
          subst h2
          obtain ⟨hwf', _, _, _, _, _, hsz, hcont⟩ := pop_success_spec q q' h hp
          obtain ⟨hwf, heq⟩ := ih q' vs qf' hwf' hro
          refine ⟨hwf, ?_⟩
          rw [hcont]
          simp only [inserted, List.cons_append, heq]

theorem drainRun_spec (n : Nat) : ∀ q : Queue α, WF q → size q = n →
    (drainRun n q).1 = contents q ∧ size (drainRun n q).2 = 0
      ∧ WF (drainRun n q).2 := by
  induction n with
  | zero =>
    intro q h hs
    unfold drainRun
    exact ⟨by simp [contents, hs], hs, h⟩
  | succ n ih =>
    intro q h hs
    have hne : q.head ≠ q.tail := by
      intro heq
      have := (size_zero_iff q h.2.1 h.2.2.1).mpr heq
      omega
    have hf : front q = some (q.tail + q.pad) := by
      unfold front
      dsimp only
      rw [if_neg hne]
    unfold drainRun
    rw [hf]
    rcases hp : pop q with _ | q'
    · rw [pop_none_iff] at hp
      exact absurd hp hne
    · obtain ⟨hwf', _, _, _, _, _, hsz, hcont⟩ := pop_success_spec q q' h hp
      dsimp only
      have hsq' : size q' = n := by omega
      obtain ⟨ih1, ih2, ih3⟩ := ih q' hwf' hsq'
      exact ⟨by rw [hcont, ih1], ih2, ih3⟩

/-! ### Further helpers shared by the claim theorems -/

theorem emplace_iff (q : Queue α) (v : α) (q' : Queue α) :
    emplace q v = some q' ↔ try_emplace q v = (true, q') := by
  unfold emplace try_emplace
  dsimp only
  split
  · constructor
    · intro hx
      exact nomatch hx
    · intro hx
      injection hx with h1 h2
      exact nomatch h1
  · constructor
    · intro hx
      injection hx with h1
      rw [h1]
    · intro hx
      injection hx with h1 h2
      rw [h2]

theorem try_emplace_fst (q : Queue α) (v : α) :
    (try_emplace q v).1 = true ↔ (q.head + 1) % q.capacity ≠ q.tail := by
  unfold try_emplace
  dsimp only
  split
  · rename_i hc
    constructor
    · intro hx
      exact nomatch hx
    · intro hx
      exact absurd hc hx
  · rename_i hc
    constructor
    · intro _
      exact hc
    · intro _
      rfl

theorem not_full_iff (q : Queue α) (h : WF q) :
    (q.head + 1) % q.capacity ≠ q.tail ↔ size q < q.capacity - 1 := by
  obtain ⟨hC, hh, ht, _⟩ := h
  have hs := size_cases q ht
  rcases mod_small_cases (q.head + 1) q.capacity (by omega) with ⟨h1, hm⟩ | ⟨h1, hm⟩ <;>
    rw [hm] <;> omega

theorem construct_ok (pad capacity : Nat) (q0 : Queue α)
    (h0 : construct α pad capacity true = .ok q0) :
    2 ≤ capacity
      ∧ q0 = { capacity := capacity, pad := pad,
               slots := List.replicate (capacity + 2 * pad) none,
               head := 0, tail := 0 } := by
  unfold construct at h0
  split at h0
  · exact nomatch h0
  · rename_i hc
    simp only [Bool.not_true, Bool.false_eq_true, if_false, Except.ok.injEq] at h0
    exact ⟨by omega, h0.symm⟩

theorem construct_wf (pad capacity : Nat) (q0 : Queue α)
    (h0 : construct α pad capacity true = .ok q0) :
    WF q0 ∧ size q0 = 0 ∧ contents q0 = [] := by
  obtain ⟨hC, hq0⟩ := construct_ok pad capacity q0 h0
  subst hq0
  have hsz : size
      { capacity := capacity, pad := pad,
        slots := (List.replicate (capacity + 2 * pad) (none : Option α)),
        head := 0, tail := 0 } = 0 := by
    unfold size
    simp
  refine ⟨⟨hC, by dsimp only; omega, by dsimp only; omega, by simp⟩, hsz, ?_⟩
  unfold contents
  rw [hsz]
  simp

/-! ### Claim theorems -/

/-- Claim C10: when the requested capacity is less than 2, construction fails
with the `InvalidCapacity` condition regardless of whether the storage
allocation succeeded or failed — the capacity check precedes the
allocation-failure check, so `InvalidCapacity` takes precedence over
`AllocationFailure` when both error conditions hold simultaneously. -/
theorem claim_invalid_capacity_precedence (pad capacity : Nat) (allocOk : Bool)
    (h : capacity < 2) :
    construct α pad capacity allocOk = .error .invalidCapacity := by
  unfold construct
  rw [if_pos h]

/-- Witness for C10 at capacity 0 with a failed allocation, the case where
both error conditions hold at once. -/
theorem claim_invalid_capacity_precedence_witness :
    (0 : Nat) < 2
      ∧ construct Nat 1 0 false = .error .invalidCapacity :=
  ⟨by decide, claim_invalid_capacity_precedence 1 0 false (by decide)⟩

/-- Claim C9: for every element size `s ≥ 1`, the per-side padding count
`kPadding = (kCacheLineSize - 1) / s + 1` (with `kCacheLineSize = 128`)
equals the round-up `⌈128 / s⌉`; consequently `kPadding ≥ 1` and
`kPadding * s ≥ 128`, and the allocation holds `capacity + 2 * kPadding`
slots. -/
theorem claim_padding (s capacity : Nat) (q0 : Queue α) (hs : 1 ≤ s)
    (h0 : construct α (kPadding s) capacity true = .ok q0) :
    kPadding s = (kCacheLineSize + s - 1) / s
      ∧ 1 ≤ kPadding s
      ∧ kCacheLineSize ≤ kPadding s * s
      ∧ q0.slots.length = capacity + 2 * kPadding s := by
  obtain ⟨hC, hq0⟩ := construct_ok (kPadding s) capacity q0 h0
  refine ⟨?_, by unfold kPadding; exact Nat.le_add_left 1 _, ?_, by rw [hq0]; simp⟩
  · unfold kPadding kCacheLineSize
    have h1 : (128 : Nat) - 1 = 127 := rfl
    have h2 : 128 + s - 1 = 127 + s := by omega
    rw [h1, h2, Nat.add_div_right _ (by omega)]
  · unfold kPadding kCacheLineSize
    have h1 : (128 : Nat) - 1 = 127 := rfl
    rw [h1]
    have h3 : (127 : Nat) / s < 127 / s + 1 := Nat.lt_succ_self _
    have h4 := (Nat.div_lt_iff_lt_mul (by omega)).mp h3
    omega

/-- Witness for C9 at element size 24 and capacity 2 (`kPadding 24 = 6`;
`6 * 24 = 144 ≥ 128`; the allocation holds `2 + 12` slots). -/
theorem claim_padding_witness :
    (1 ≤ 24
        ∧ construct Nat (kPadding 24) 2 true
            = .ok ⟨2, kPadding 24, List.replicate (2 + 2 * kPadding 24) none, 0, 0⟩)
      ∧ (kPadding 24 = (kCacheLineSize + 24 - 1) / 24
          ∧ 1 ≤ kPadding 24
          ∧ kCacheLineSize ≤ kPadding 24 * 24
          ∧ (List.replicate (2 + 2 * kPadding 24) (none : Option Nat)).length
              = 2 + 2 * kPadding 24) :=
  ⟨⟨by decide, by rfl⟩,
    claim_padding 24 2 ⟨2, kPadding 24, List.replicate (2 + 2 * kPadding 24) none, 0, 0⟩
      (by decide) (by rfl)⟩

/-- Claim C6: for all `head` and `tail` with `0 ≤ head < capacity` and
`0 ≤ tail < capacity`, `size` returns `(head - tail) mod capacity` — computed
by wraparound subtraction — so the result is always in `[0, capacity - 1]`;
and `empty` returns `true` iff `size = 0` iff `head = tail`. -/
theorem claim_size_empty (q : Queue α) (h1 : q.head < q.capacity)
    (h2 : q.tail < q.capacity) :
    (size q : Int) = ((q.head : Int) - (q.tail : Int)) % (q.capacity : Int)
      ∧ size q ≤ q.capacity - 1
      ∧ (empty q = true ↔ size q = 0)
      ∧ (size q = 0 ↔ q.head = q.tail) := by
  have hlt := size_lt_capacity q h1 h2
  refine ⟨?_, by omega, by unfold empty; simp, size_zero_iff q h1 h2⟩
  rcases size_cases q h2 with ⟨hc, hs⟩ | ⟨hc, hs⟩
  · have he : (q.head : Int) - (q.tail : Int) = (size q : Int) := by omega
    rw [he, Int.emod_eq_of_lt (by omega) (by omega)]
  · have he : (q.head : Int) - (q.tail : Int) + (q.capacity : Int) * 1
        = (size q : Int) := by omega
    rw [← Int.add_mul_emod_self_left, he,
      Int.emod_eq_of_lt (by omega) (by omega)]

/-- Witness for C6 on a wrapped-around queue (`head = 0 < tail = 2`,
capacity 3, size 1). -/
theorem claim_size_empty_witness :
    ((0 : Nat) < 3 ∧ (2 : Nat) < 3)
      ∧ ((size (⟨3, 1, [none, none, none, some 9, none], 0, 2⟩ : Queue Nat) : Int)
            = ((0 : Int) - (2 : Int)) % (3 : Int)
          ∧ size (⟨3, 1, [none, none, none, some 9, none], 0, 2⟩ : Queue Nat) ≤ 3 - 1
          ∧ (empty (⟨3, 1, [none, none, none, some 9, none], 0, 2⟩ : Queue Nat) = true
              ↔ size (⟨3, 1, [none, none, none, some 9, none], 0, 2⟩ : Queue Nat) = 0)
          ∧ (size (⟨3, 1, [none, none, none, some 9, none], 0, 2⟩ : Queue Nat) = 0
              ↔ (0 : Nat) = 2)) :=
  ⟨by decide,
    claim_size_empty ⟨3, 1, [none, none, none, some 9, none], 0, 2⟩
      (by decide) (by decide)⟩

/-- Claim C3: construction with requested capacity 0 or 1 fails with the
`InvalidCapacity` condition; construction fails with `AllocationFailure`
when the backing storage cannot be obtained (and the capacity is valid);
for every requested capacity ≥ 2 with successful allocation, construction
succeeds and yields a queue with `head = 0`, `tail = 0`, `size = 0` (empty),
and `capacity` equal to the requested value. -/
theorem claim_construct (pad capacity : Nat) (q0 : Queue α)
    (h2 : 2 ≤ capacity) (h0 : construct α pad capacity true = .ok q0) :
    construct α pad 0 true = .error .invalidCapacity
      ∧ construct α pad 1 true = .error .invalidCapacity
      ∧ construct α pad capacity false = .error .allocationFailure
      ∧ construct α pad capacity true
          = .ok { capacity := capacity, pad := pad,
                  slots := List.replicate (capacity + 2 * pad) none,
                  head := 0, tail := 0 }
      ∧ q0.head = 0 ∧ q0.tail = 0 ∧ size q0 = 0 ∧ empty q0 = true
      ∧ q0.capacity = capacity := by
  obtain ⟨_, hq0⟩ := construct_ok pad capacity q0 h0
  obtain ⟨_, hsz, _⟩ := construct_wf pad capacity q0 h0
  refine ⟨by unfold construct; rw [if_pos (by omega)],
    by unfold construct; rw [if_pos (by omega)], ?_, ?_, ?_, ?_, hsz,
    by unfold empty; rw [hsz]; rfl, ?_⟩
  · unfold construct
    rw [if_neg (by omega)]
    rfl
  · unfold construct
    rw [if_neg (by omega)]
    rfl
  · rw [hq0]
  · rw [hq0]
  · rw [hq0]

/-- Witness for C3 at capacity 2 with one padding slot per side. -/
theorem claim_construct_witness :
    (2 ≤ 2 ∧ construct Nat 1 2 true = .ok ⟨2, 1, List.replicate 4 none, 0, 0⟩)
      ∧ (construct Nat 1 0 true = .error .invalidCapacity
          ∧ construct Nat 1 1 true = .error .invalidCapacity
          ∧ construct Nat 1 2 false = .error .allocationFailure
          ∧ construct Nat 1 2 true
              = .ok { capacity := 2, pad := 1,
                      slots := List.replicate (2 + 2 * 1) none,
                      head := 0, tail := 0 }
          ∧ (⟨2, 1, List.replicate 4 none, 0, 0⟩ : Queue Nat).head = 0
          ∧ (⟨2, 1, List.replicate 4 none, 0, 0⟩ : Queue Nat).tail = 0
          ∧ size (⟨2, 1, List.replicate 4 none, 0, 0⟩ : Queue Nat) = 0
          ∧ empty (⟨2, 1, List.replicate 4 none, 0, 0⟩ : Queue Nat) = true
          ∧ (⟨2, 1, List.replicate 4 none, 0, 0⟩ : Queue Nat).capacity = 2) :=
  ⟨⟨by decide, by rfl⟩,
    claim_construct 1 2 ⟨2, 1, List.replicate 4 none, 0, 0⟩ (by decide) (by rfl)⟩

/-- Claim C2: for every queue with capacity `C ≥ 2` (well-formed state):
`try_emplace`/`try_push` succeeds iff `size < C - 1` at the moment of the
check (equivalently iff `(head + 1) mod C ≠ tail`); on success it constructs
exactly one element and increases `size` by exactly one; on failure it
returns `false`, constructs nothing, and leaves `head`, `tail` and all slots
unchanged. Hence the queue holds at most `C - 1` live elements, and a
non-blocking insert attempted while `C - 1` elements are held fails. -/
theorem claim_try_emplace (q : Queue α) (v : α) (h : WF q) :
    ((try_emplace q v).1 = true ↔ size q < q.capacity - 1)
      ∧ ((try_emplace q v).1 = true ↔ (q.head + 1) % q.capacity ≠ q.tail)
      ∧ ((try_emplace q v).1 = true →
          size (try_emplace q v).2 = size q + 1
            ∧ (try_emplace q v).2.slots = q.slots.set (q.head + q.pad) (some v))
      ∧ ((try_emplace q v).1 = false → (try_emplace q v).2 = q)
      ∧ size q ≤ q.capacity - 1
      ∧ (size q = q.capacity - 1 → (try_emplace q v).1 = false) := by
  have hfst := try_emplace_fst q v
  have hiff : (try_emplace q v).1 = true ↔ size q < q.capacity - 1 :=
    hfst.trans (not_full_iff q h)
  have hle : size q ≤ q.capacity - 1 := by
    have := size_lt_capacity q h.2.1 h.2.2.1
    omega
  refine ⟨hiff, hfst, ?_, fun hf => (try_emplace_eq_false q v hf).2, hle, ?_⟩
  · intro ht
    rcases he : try_emplace q v with ⟨b, q'⟩
    rw [he] at ht
    dsimp only at ht
    subst ht
    obtain ⟨_, _, _, _, _, hslots, hsz, _⟩ := try_emplace_success_spec q v q' h he
    exact ⟨hsz, hslots⟩
  · intro hful
    cases hb : (try_emplace q v).1
    · rfl
    · exact absurd (hiff.mp hb) (by omega)

/-- Witness for C2 on the empty capacity-2 queue: the first insert succeeds
(`size 0 < 1`) and produces size 1. -/
theorem claim_try_emplace_witness :
    WF wqEmpty2
      ∧ (((try_emplace wqEmpty2 7).1 = true ↔ size wqEmpty2 < wqEmpty2.capacity - 1)
          ∧ ((try_emplace wqEmpty2 7).1 = true
              ↔ (wqEmpty2.head + 1) % wqEmpty2.capacity ≠ wqEmpty2.tail)
          ∧ ((try_emplace wqEmpty2 7).1 = true →
              size (try_emplace wqEmpty2 7).2 = size wqEmpty2 + 1
                ∧ (try_emplace wqEmpty2 7).2.slots
                    = wqEmpty2.slots.set (wqEmpty2.head + wqEmpty2.pad) (some 7))
          ∧ ((try_emplace wqEmpty2 7).1 = false → (try_emplace wqEmpty2 7).2 = wqEmpty2)
          ∧ size wqEmpty2 ≤ wqEmpty2.capacity - 1
          ∧ (size wqEmpty2 = wqEmpty2.capacity - 1
              → (try_emplace wqEmpty2 7).1 = false)) :=
  ⟨by decide, claim_try_emplace wqEmpty2 7 (by decide)⟩

/-- Claim C4: `pop` has the precondition that the queue is non-empty
(`head ≠ tail`), enforced as a fatal assertion: on an empty queue the
assertion fires (modelled as `none`); on a non-empty queue the assertion
passes, `pop` destroys exactly the element at `tail`, advances `tail` to
`(tail + 1) mod capacity`, leaves `head` and all other slots unchanged, and
decreases `size` by exactly one. -/
theorem claim_pop (q : Queue α) (h : WF q) :
    (q.head = q.tail → pop q = none)
      ∧ (q.head ≠ q.tail →
          pop q = some
            { q with
              slots := q.slots.set (q.tail + q.pad) none,
              tail := (q.tail + 1) % q.capacity }
            ∧ size
                { q with
                  slots := q.slots.set (q.tail + q.pad) none,
                  tail := (q.tail + 1) % q.capacity } + 1 = size q) := by
  refine ⟨fun he => (pop_none_iff q).mpr he, fun hne => ?_⟩
  have hp : pop q = some
      { q with
        slots := q.slots.set (q.tail + q.pad) none,
        tail := (q.tail + 1) % q.capacity } := by
    unfold pop
    dsimp only
    rw [if_neg hne]
  obtain ⟨_, _, _, _, _, _, hsz, _⟩ := pop_success_spec q _ h hp
  exact ⟨hp, hsz⟩

/-- Witness for C4 on the one-element capacity-3 queue: the assertion
passes, the element at `tail` (physical slot 1) is destroyed, and the size
drops from 1 to 0. -/
theorem claim_pop_witness :
    WF wqOne3
      ∧ ((wqOne3.head = wqOne3.tail → pop wqOne3 = none)
          ∧ (wqOne3.head ≠ wqOne3.tail →
              pop wqOne3 = some
                { wqOne3 with
                  slots := wqOne3.slots.set (wqOne3.tail + wqOne3.pad) none,
                  tail := (wqOne3.tail + 1) % wqOne3.capacity }
                ∧ size
                    { wqOne3 with
                      slots := wqOne3.slots.set (wqOne3.tail + wqOne3.pad) none,
                      tail := (wqOne3.tail + 1) % wqOne3.capacity } + 1
                  = size wqOne3)) :=
  ⟨by decide, claim_pop wqOne3 (by decide)⟩

/-- Claim C5: `front` returns the pointer to the element at `tail`
(physical slot `tail + pad`) when the queue is non-empty, and the null
indicator when empty; it is a pure observer, and with no intervening `pop`
(only inserts) both the pointer it returns and the value it points to are
unchanged. -/
theorem claim_front (q : Queue α) (v : α) :
    (q.head = q.tail → front q = none)
      ∧ (q.head ≠ q.tail → front q = some (q.tail + q.pad))
      ∧ (q.head ≠ q.tail → (try_emplace q v).1 = true →
          front (try_emplace q v).2 = front q
            ∧ frontVal (try_emplace q v).2 = frontVal q) := by
  refine ⟨?_, ?_, ?_⟩
  · intro he
    unfold front
    dsimp only
    rw [if_pos he]
  · intro hne
    unfold front
    dsimp only
    rw [if_neg hne]
  · intro hne ht
    rcases he : try_emplace q v with ⟨b, q'⟩
    rw [he] at ht
    dsimp only at ht
    subst ht
    obtain ⟨hq', hne2⟩ := try_emplace_eq_true q v q' he
    subst hq'
    constructor
    · unfold front
      dsimp only
      rw [if_neg hne2, if_neg hne]
    · unfold frontVal front
      dsimp only
      rw [if_neg hne2, if_neg hne]
      dsimp only
      exact getD_set_ne _ _ _ (by omega)

/-- Witness for C5 on the one-element capacity-3 queue with an insert of 9:
`front` keeps returning physical slot 1 holding the value 5. -/
theorem claim_front_witness :
    (wqOne3.head = wqOne3.tail → front wqOne3 = none)
      ∧ (wqOne3.head ≠ wqOne3.tail
          → front wqOne3 = some (wqOne3.tail + wqOne3.pad))
      ∧ (wqOne3.head ≠ wqOne3.tail → (try_emplace wqOne3 9).1 = true →
          front (try_emplace wqOne3 9).2 = front wqOne3
            ∧ frontVal (try_emplace wqOne3 9).2 = frontVal wqOne3) :=
  claim_front wqOne3 9

/-- Claim C7: the invariant `0 ≤ head < capacity ∧ 0 ≤ tail < capacity`
(with the slot array of its full physical length) is established by
construction and preserved by every operation, and every in-place
construction (`try_emplace`, and `emplace` via the same write) or
destruction (`pop`) targets a physical slot index in
`[kPadding, kPadding + capacity)` — the padding slots on either side are
never used to hold an element. -/
theorem claim_invariants (q : Queue α) (v : α) (q'' : Queue α)
    (pad capacity : Nat) (q0 : Queue α) (h : WF q)
    (h0 : construct α pad capacity true = .ok q0) :
    WF q0
      ∧ ((try_emplace q v).1 = true →
          WF (try_emplace q v).2
            ∧ (try_emplace q v).2.slots = q.slots.set (q.head + q.pad) (some v)
            ∧ q.pad ≤ q.head + q.pad ∧ q.head + q.pad < q.pad + q.capacity)
      ∧ ((try_emplace q v).1 = false → (try_emplace q v).2 = q)
      ∧ (emplace q v = some q'' →
          WF q'' ∧ q''.slots = q.slots.set (q.head + q.pad) (some v))
      ∧ (q.head ≠ q.tail →
          WF { q with
               slots := q.slots.set (q.tail + q.pad) none,
               tail := (q.tail + 1) % q.capacity }
            ∧ q.pad ≤ q.tail + q.pad ∧ q.tail + q.pad < q.pad + q.capacity) := by
  obtain ⟨hwf0, _, _⟩ := construct_wf pad capacity q0 h0
  refine ⟨hwf0, ?_, fun hf => (try_emplace_eq_false q v hf).2, ?_, ?_⟩
  · intro ht
    rcases he : try_emplace q v with ⟨b, q'⟩
    rw [he] at ht
    dsimp only at ht
    subst ht
    obtain ⟨hwf', _, _, _, _, hslots, _, _⟩ := try_emplace_success_spec q v q' h he
    exact ⟨hwf', hslots, Nat.le_add_left _ _, by have := h.2.1; omega⟩
  · intro hem
    have he := (emplace_iff q v q'').mp hem
    obtain ⟨hwf', _, _, _, _, hslots, _, _⟩ := try_emplace_success_spec q v q'' h he
    exact ⟨hwf', hslots⟩
  · intro hne
    have hp : pop q = some
        { q with
          slots := q.slots.set (q.tail + q.pad) none,
          tail := (q.tail + 1) % q.capacity } := by
      unfold pop
      dsimp only
      rw [if_neg hne]
    obtain ⟨hwf', _, _, _, _, _, _, _⟩ := pop_success_spec q _ h hp
    exact ⟨hwf', Nat.le_add_left _ _, by have := h.2.2.1; omega⟩

/-- Witness for C7 on the one-element capacity-3 queue (with an insert of 4
and a fresh construction of capacity 2). -/
theorem claim_invariants_witness :
    (WF wqOne3 ∧ construct Nat 1 2 true = .ok wqEmpty2)
      ∧ (WF wqEmpty2
          ∧ ((try_emplace wqOne3 4).1 = true →
              WF (try_emplace wqOne3 4).2
                ∧ (try_emplace wqOne3 4).2.slots
                    = wqOne3.slots.set (wqOne3.head + wqOne3.pad) (some 4)
                ∧ wqOne3.pad ≤ wqOne3.head + wqOne3.pad
                ∧ wqOne3.head + wqOne3.pad < wqOne3.pad + wqOne3.capacity)
          ∧ ((try_emplace wqOne3 4).1 = false → (try_emplace wqOne3 4).2 = wqOne3)
          ∧ (emplace wqOne3 4 = some (try_emplace wqOne3 4).2 →
              WF (try_emplace wqOne3 4).2
                ∧ (try_emplace wqOne3 4).2.slots
                    = wqOne3.slots.set (wqOne3.head + wqOne3.pad) (some 4))
          ∧ (wqOne3.head ≠ wqOne3.tail →
              WF { wqOne3 with
                   slots := wqOne3.slots.set (wqOne3.tail + wqOne3.pad) none,
                   tail := (wqOne3.tail + 1) % wqOne3.capacity }
                ∧ wqOne3.pad ≤ wqOne3.tail + wqOne3.pad
                ∧ wqOne3.tail + wqOne3.pad < wqOne3.pad + wqOne3.capacity)) :=
  ⟨⟨by decide, by rfl⟩,
    claim_invariants wqOne3 4 (try_emplace wqOne3 4).2 1 2 wqEmpty2
      (by decide) (by rfl)⟩

/-- Claim C8: the destructor destroys every element still occupying a slot,
in order from `tail` to `head` (equivalently to repeatedly popping until the
queue is empty — the drain ends with size 0), and releases the storage block
only after all contained elements have been destroyed (the `free` event is
last in the trace); destroying an already-empty queue destroys no
elements. -/
theorem claim_destructor (q : Queue α) (h : WF q) :
    destructorTrace q = (contents q).map DtorEvent.destroy ++ [DtorEvent.free]
      ∧ size (drainRun (size q) q).2 = 0
      ∧ (q.head = q.tail → destructorTrace q = [DtorEvent.free]) := by
  obtain ⟨h1, h2, _⟩ := drainRun_spec (size q) q h rfl
  refine ⟨by unfold destructorTrace; rw [h1], h2, ?_⟩
  intro he
  unfold destructorTrace
  rw [h1]
  have hs0 : size q = 0 := (size_zero_iff q h.2.1 h.2.2.1).mpr he
  unfold contents
  rw [hs0]
  simp

/-- Witness for C8 on the two-element capacity-3 queue: the trace destroys
7 then 8 and frees last. -/
theorem claim_destructor_witness :
    WF wqTwo3
      ∧ (destructorTrace wqTwo3
            = (contents wqTwo3).map DtorEvent.destroy ++ [DtorEvent.free]
          ∧ size (drainRun (size wqTwo3) wqTwo3).2 = 0
          ∧ (wqTwo3.head = wqTwo3.tail → destructorTrace wqTwo3 = [DtorEvent.free])) :=
  ⟨by decide, claim_destructor wqTwo3 (by decide)⟩

/-- Claim C1: strict FIFO — for every sequence of insert operations
(`try_emplace` succeeding; `emplace` succeeds in exactly the same states
with exactly the same resulting queue) interleaved with removals (`pop`,
each on a non-empty queue), starting from a freshly constructed queue, the
values destroyed by the pops followed by the values still held are exactly
the inserted values, in insertion order, with no loss, duplication, or
reordering. -/
theorem claim_fifo (pad capacity : Nat) (q0 qf : Queue α) (ops : List (Op α))
    (popped : List (Option α)) (q : Queue α) (v : α) (q' : Queue α)
    (h0 : construct α pad capacity true = .ok q0)
    (hr : runOps q0 ops = some (popped, qf)) :
    popped ++ contents qf = (inserted ops).map some
      ∧ (emplace q v = some q' ↔ try_emplace q v = (true, q'))
      ∧ (q.head ≠ q.tail → frontVal q = q.slots.getD (q.tail + q.pad) none) := by
  obtain ⟨hwf, _, hcont⟩ := construct_wf pad capacity q0 h0
  obtain ⟨_, heq⟩ := runOps_spec ops q0 popped qf hwf hr
  rw [hcont] at heq
  refine ⟨by simpa using heq, emplace_iff q v q', fun hne => ?_⟩
  unfold frontVal front
  dsimp only
  rw [if_neg hne]

/-- Witness for C1: capacity 3 (two usable slots), run
insert 10, insert 20, pop, insert 30, pop, pop — the pops observe
10, 20, 30 in insertion order and the queue ends empty. -/
theorem claim_fifo_witness :
    (construct Nat 1 3 true = .ok ⟨3, 1, List.replicate 5 none, 0, 0⟩
        ∧ runOps (⟨3, 1, List.replicate 5 none, 0, 0⟩ : Queue Nat)
              [Op.ins 10, Op.ins 20, Op.del, Op.ins 30, Op.del, Op.del]
            = some ([some 10, some 20, some 30],
                ⟨3, 1, List.replicate 5 none, 0, 0⟩))
      ∧ ([some 10, some 20, some 30]
            ++ contents (⟨3, 1, List.replicate 5 none, 0, 0⟩ : Queue Nat)
          = (inserted [Op.ins 10, Op.ins 20, Op.del, Op.ins 30, Op.del, Op.del]).map some
          ∧ (emplace wqOne3 7 = some (try_emplace wqOne3 7).2
              ↔ try_emplace wqOne3 7 = (true, (try_emplace wqOne3 7).2))
          ∧ (wqOne3.head ≠ wqOne3.tail →
              frontVal wqOne3 = wqOne3.slots.getD (wqOne3.tail + wqOne3.pad) none)) :=
  ⟨⟨by rfl, by rfl⟩,
    claim_fifo 1 3 ⟨3, 1, List.replicate 5 none, 0, 0⟩
      ⟨3, 1, List.replicate 5 none, 0, 0⟩
      [Op.ins 10, Op.ins 20, Op.del, Op.ins 30, Op.del, Op.del]
      [some 10, some 20, some 30] wqOne3 7 (try_emplace wqOne3 7).2
      (by rfl) (by rfl)⟩

end SPSC
